import Mathlib

/-!
Verification development for the conversation store and compaction engine of a
customer-support chatbot repository.

The relational store of src/database.py (SQLite) is modelled shallowly: each
table is a list of rows, AUTOINCREMENT primary keys are explicit counters, and
each Python function becomes a pure Lean function on the store state.  SQL
ORDER BY is modelled by insertion sort on the relevant key (any sorted
permutation is a faithful model of ORDER BY); a table without ORDER BY is read
in list order.  Timestamps (datetime.utcnow) are passed in as explicit string
arguments.  Rows inserted into `messages` are prepended (row order of that
table is irrelevant: every read of it sorts by idx); rows inserted into
`summaries` are appended, modelling the append-only summary log.
-/

/-- Row of the conversations table of src/database.py: id PK, user_id,
active_agent DEFAULT general, pending_switch (nullable), running_summary
DEFAULT empty. -/
structure Conversation where
  id : String
  user_id : String
  active_agent : String
  pending_switch : Option String
  running_summary : String
deriving Repr, DecidableEq

/-- Row of the messages table: id PK AUTOINCREMENT, conversation_id, idx,
role, text, archived DEFAULT 0, created_at. -/
structure Message where
  id : Nat
  conversation_id : String
  idx : Int
  role : String
  text : String
  archived : Bool
  created_at : String
deriving Repr, DecidableEq

/-- Row of the summaries table: id PK AUTOINCREMENT, conversation_id,
start_idx, end_idx, summary, created_at. -/
structure SummaryRow where
  id : Nat
  conversation_id : String
  start_idx : Int
  end_idx : Int
  summary : String
  created_at : String
deriving Repr, DecidableEq

/-- Whole SQLite database state: the three tables plus the AUTOINCREMENT
counters. -/
structure DB where
  conversations : List Conversation
  messages : List Message
  summaries : List SummaryRow
  next_message_id : Nat
  next_summary_id : Nat
deriving Repr, DecidableEq

/-- Freshly created database (executescript of SCHEMA on an empty file). -/
def DB.empty : DB := ⟨[], [], [], 1, 1⟩

/-- Rows of the messages table belonging to one conversation
(WHERE conversation_id=?). -/
def messagesOf (db : DB) (cid : String) : List Message :=
  db.messages.filter (fun m => m.conversation_id == cid)

/-- SQL COALESCE(MAX(idx), -1) over the messages of one conversation. -/
def maxIdx (db : DB) (cid : String) : Int :=
  ((messagesOf db cid).map Message.idx).foldr max (-1)

/-- Embedding of save_message (src/database.py lines 65-74): computes
idx = COALESCE(MAX(idx), -1) + 1 for the conversation, inserts the row, and
returns the assigned idx.  The caller supplies the created_at timestamp. -/
def save_message (db : DB) (cid role text now : String) : DB × Int :=
  let idx := maxIdx db cid + 1
  let msg : Message := ⟨db.next_message_id, cid, idx, role, text, false, now⟩
  ({ db with
      messages := msg :: db.messages,
      next_message_id := db.next_message_id + 1 }, idx)

/-- Ascending comparison of messages by idx, the key of ORDER BY idx ASC. -/
def Message.leIdx (a b : Message) : Prop := a.idx ≤ b.idx

/-- Descending comparison of messages by idx, the key of ORDER BY idx DESC. -/
def Message.geIdx (a b : Message) : Prop := b.idx ≤ a.idx

instance : DecidableRel Message.leIdx :=
  fun a b => inferInstanceAs (Decidable (a.idx ≤ b.idx))

instance : DecidableRel Message.geIdx :=
  fun a b => inferInstanceAs (Decidable (b.idx ≤ a.idx))

instance : IsTotal Message Message.leIdx := ⟨fun a b => Int.le_total a.idx b.idx⟩

instance : IsTrans Message Message.leIdx := ⟨fun _ _ _ h1 h2 => le_trans h1 h2⟩

instance : IsTotal Message Message.geIdx := ⟨fun a b => Int.le_total b.idx a.idx⟩

instance : IsTrans Message Message.geIdx := ⟨fun _ _ _ h1 h2 => le_trans h2 h1⟩

/-- Model of SQL ORDER BY idx ASC on a list of message rows. -/
def sortByIdxAsc (l : List Message) : List Message := l.insertionSort Message.leIdx

/-- Model of SQL ORDER BY idx DESC on a list of message rows. -/
def sortByIdxDesc (l : List Message) : List Message := l.insertionSort Message.geIdx

/-- Unarchived messages of one conversation
(WHERE conversation_id=? AND archived=0). -/
def unarchivedOf (db : DB) (cid : String) : List Message :=
  db.messages.filter (fun m => m.conversation_id == cid && !m.archived)

/-- Embedding of get_unarchived (src/database.py lines 77-84): the SELECT uses
ORDER BY idx DESC LIMIT ?, and the Python code reverses the fetched rows. -/
def get_unarchived (db : DB) (cid : String) (limit : Nat) : List Message :=
  ((sortByIdxDesc (unarchivedOf db cid)).take limit).reverse

/-- Embedding of next_four_unarchived (src/database.py lines 87-94): SELECT the
unarchived rows ORDER BY idx ASC LIMIT 4, return them only when exactly four
were fetched, otherwise return the empty list. -/
def next_four_unarchived (db : DB) (cid : String) : List Message :=
  let rows := (sortByIdxAsc (unarchivedOf db cid)).take 4
  if rows.length = 4 then rows else []

/-- Embedding of archive_ids (src/database.py lines 97-102): early return on
the empty id list, otherwise UPDATE messages SET archived=1 WHERE id IN ids. -/
def archive_ids (db : DB) (ids : List Nat) : DB :=
  if ids = [] then db
  else
    { db with
        messages := db.messages.map
          (fun m => if m.id ∈ ids then { m with archived := true } else m) }

/-- Field assignment of the dynamic kwargs of upsert_conversation; each entry
models one UPDATE conversations SET k=? statement. -/
inductive FieldUpdate where
  | userId (v : String)
  | activeAgent (v : String)
  | pendingSwitch (v : Option String)
  | runningSummary (v : String)
deriving Repr, DecidableEq

/-- Application of one SET k=? assignment to a conversation row. -/
def applyField (c : Conversation) (f : FieldUpdate) : Conversation :=
  match f with
  | .userId v => { c with user_id := v }
  | .activeAgent v => { c with active_agent := v }
  | .pendingSwitch v => { c with pending_switch := v }
  | .runningSummary v => { c with running_summary := v }

/-- SQL UPDATE conversations ... WHERE id=?: rewrites the matching row and is
a silent no-op when no row matches. -/
def updateConv (db : DB) (cid : String) (f : Conversation → Conversation) : DB :=
  { db with
      conversations := db.conversations.map (fun c => if c.id == cid then f c else c) }

/-- SELECT id FROM conversations WHERE id=? followed by a fetchone is-None
test, as upsert_conversation performs it. -/
def conversationExists (db : DB) (cid : String) : Bool :=
  db.conversations.any (fun c => c.id == cid)

/-- Embedding of upsert_conversation (src/database.py lines 48-55): INSERT the
row with schema defaults when absent, then apply every kwargs field as an
UPDATE statement. -/
def upsert_conversation (db : DB) (cid uid : String) (fields : List FieldUpdate) : DB :=
  let db1 :=
    if conversationExists db cid then db
    else { db with conversations := db.conversations ++ [⟨cid, uid, "general", none, ""⟩] }
  fields.foldl (fun d f => updateConv d cid (fun c => applyField c f)) db1

/-- Embedding of get_conversation (src/database.py lines 58-61): fetchone on
SELECT * WHERE id=?. -/
def get_conversation (db : DB) (cid : String) : Option Conversation :=
  db.conversations.find? (fun c => c.id == cid)

/-- Embedding of append_chunk_summary (src/database.py lines 106-111): INSERT
one row into the summaries log. -/
def append_chunk_summary (db : DB) (cid : String) (s e : Int) (summary now : String) : DB :=
  { db with
      summaries := db.summaries ++ [⟨db.next_summary_id, cid, s, e, summary, now⟩],
      next_summary_id := db.next_summary_id + 1 }

/-- Embedding of get_running_summary (src/database.py lines 114-118): returns
the row field, or the empty string when the conversation row is absent. -/
def get_running_summary (db : DB) (cid : String) : String :=
  match get_conversation db cid with
  | some c => c.running_summary
  | none => ""

/-- Embedding of set_running_summary (src/database.py lines 121-123): a bare
UPDATE conversations SET running_summary=? WHERE id=?. -/
def set_running_summary (db : DB) (cid summary : String) : DB :=
  updateConv db cid (fun c => { c with running_summary := summary })

/-- Summary-log rows of one conversation, in log (insertion) order. -/
def chunksOf (db : DB) (cid : String) : List SummaryRow :=
  db.summaries.filter (fun s => s.conversation_id == cid)

/-- Checks that a chunk sequence is contiguous when started at position k:
each chunk starts where the previous one ended. -/
def contiguousFrom : Int → List SummaryRow → Bool
  | _, [] => true
  | k, s :: rest => (s.start_idx == k) && contiguousFrom s.end_idx rest

/-- Position where a chunk sequence started at k ends: the last end_idx, or k
itself for the empty sequence. -/
def tilingEndFrom : Int → List SummaryRow → Int
  | k, [] => k
  | _, s :: rest => tilingEndFrom s.end_idx rest

/-- Chunks of the conversation are contiguous from index 0, so their ranges
tile an initial segment of the index space with no gaps or overlaps. -/
def chunksContiguous (db : DB) (cid : String) : Bool :=
  contiguousFrom 0 (chunksOf db cid)

/-- End of the initial segment tiled by the chunks of the conversation. -/
def tilingEnd (db : DB) (cid : String) : Int :=
  tilingEndFrom 0 (chunksOf db cid)

/-- Highest idx among the archived messages of one conversation, or -1 when
none are archived. -/
def highestArchivedIdx (db : DB) (cid : String) : Int :=
  ((db.messages.filter (fun m => m.conversation_id == cid && m.archived)).map
    Message.idx).foldr max (-1)

/-- Modelled from the spec: the rollup running summary recomputed as the
concatenation, in chunk order, of all chunk texts of the conversation
(spec section 4.3 step 3); no code in src/ recomputes the rollup. -/
def rollupOf (db : DB) (cid : String) : String :=
  String.join ((chunksOf db cid).map SummaryRow.summary)

/-- Modelled from the spec: the compaction cycle orchestrator of spec
sections 4.2-4.3 is absent from src/ (src/database.py only provides the store
primitives and nothing in src/ calls them).  It takes the next whole batch of
four oldest unarchived messages; when no whole batch exists it does nothing.
The outcome of the external summarizer call is passed in as an Option: none
models a failure or timeout, in which case nothing is written (spec section
4.3 step 4); some text models success, in which case the SummaryChunk
covering the batch range is appended, the batch message ids are archived, and
the rollup running summary is recomputed (spec section 4.3 step 3). -/
def compaction_cycle (db : DB) (cid : String) (summarizerResult : Option String)
    (now : String) : DB :=
  let batch := next_four_unarchived db cid
  if batch.isEmpty then db
  else
    match summarizerResult with
    | none => db
    | some text =>
      let startIdx := (batch.head?.map Message.idx).getD 0
      let endIdx := (batch.getLast?.map Message.idx).getD 0 + 1
      let db1 := append_chunk_summary db cid startIdx endIdx text now
      let db2 := archive_ids db1 (batch.map Message.id)
      set_running_summary db2 cid (rollupOf db2 cid)

/-- Decidable well-formedness of the store for one conversation, the invariant
a run of the store plus the compaction protocol maintains: chunks tile an
initial segment of the index space ending exactly one past the highest
archived idx, a message is archived exactly when its idx lies below that end,
message indices are dense (every index from 0 to the maximum occurs), and
message primary keys are unique. -/
def storeWF (db : DB) (cid : String) : Bool :=
  chunksContiguous db cid &&
  (tilingEnd db cid == highestArchivedIdx db cid + 1) &&
  (messagesOf db cid).all (fun m => m.archived == decide (m.idx < tilingEnd db cid)) &&
  (List.range (maxIdx db cid + 1).toNat).all
    (fun j => (messagesOf db cid).any (fun m => m.idx == (j : Int))) &&
  (db.messages.map Message.id).Nodup

/-- Entry of the in-memory session history of src/utils/chat_history.py: a
dict with role, message, timestamp and state keys. -/
structure HistEntry where
  role : String
  message : String
  timestamp : String
  state : String
deriving Repr, DecidableEq

/-- Formatting of one history entry as performed inside get_session_history
(src/utils/chat_history.py line 53). -/
def formatEntry (e : HistEntry) : String :=
  if e.role == "user" then "user: " ++ e.message else "assistant: " ++ e.message

/-- Embedding of get_session_history (src/utils/chat_history.py lines 34-56).
The state dict is modelled by its history list.  The Python slice
history[-n:] for n greater than 0 keeps the last min(n, length) entries,
which is drop (length - n) under truncated subtraction. -/
def get_session_history (history : List HistEntry) (last_n_message : Int) : String :=
  let relevant :=
    if 0 < last_n_message then history.drop (history.length - last_n_message.toNat)
    else history
  if relevant.isEmpty then "No history available."
  else String.intercalate "\n" (relevant.map formatEntry)

/-!
Model of Python json.loads and of extract_json_from_response
(src/utils/chat_history.py lines 239-264).  The parser covers the JSON value
grammar with integer numerals (fraction and exponent forms, which produce
Python floats, are outside the model and rejected); parsing is fuelled, and
every use supplies fuel exceeding the input length.  Whitespace handling uses
the four common JSON whitespace characters.
-/

/-- Python JSON value: the possible results of json.loads, floats excluded. -/
inductive PyJson where
  | null
  | bool (b : Bool)
  | num (n : Int)
  | str (s : String)
  | arr (elems : List PyJson)
  | obj (fields : List (String × PyJson))

/-- Tests whether a Python JSON value is a dict (a JSON object). -/
def PyJson.isObj : PyJson → Bool
  | .obj _ => true
  | _ => false

/-- Left brace character, written by code point. -/
def lbraceChar : Char := Char.ofNat 123

/-- Right brace character, written by code point. -/
def rbraceChar : Char := Char.ofNat 125

/-- Backtick character, written by code point. -/
def backtickChar : Char := Char.ofNat 96

/-- JSON whitespace test. -/
def isWsChar (c : Char) : Bool := c == ' ' || c == '\t' || c == '\n' || c == '\r'

/-- Drops leading JSON whitespace. -/
def skipWs : List Char → List Char
  | [] => []
  | c :: cs => if isWsChar c then skipWs cs else c :: cs

/-- Value of a decimal digit character, by code point. -/
def digitVal (c : Char) : Option Nat :=
  let n := c.toNat
  if 48 ≤ n && n ≤ 57 then some (n - 48) else none

/-- Value of a hexadecimal digit character, by code point (digits, then the
lowercase letters a-f, then the uppercase letters A-F). -/
def hexVal (c : Char) : Option Nat :=
  let n := c.toNat
  if 48 ≤ n && n ≤ 57 then some (n - 48)
  else if 97 ≤ n && n ≤ 102 then some (n - 87)
  else if 65 ≤ n && n ≤ 70 then some (n - 55)
  else none

/-- Parses a run of decimal digits, returning its value, its length and the
rest of the input. -/
def parseDigits (cs : List Char) : Option (Nat × Nat × List Char) :=
  let digits := cs.takeWhile (fun c => (digitVal c).isSome)
  if digits.isEmpty then none
  else some (digits.foldl (fun acc c => acc * 10 + (digitVal c).getD 0) 0,
             digits.length, cs.drop digits.length)

/-- Parses a JSON integer numeral: optional minus sign, then digits with no
leading zero.  Inputs whose numeral continues with a fraction or exponent are
rejected by the caller seeing the leftover dot or letter. -/
def parseIntNumeral (cs : List Char) : Option (Int × List Char) :=
  match cs with
  | '-' :: rest =>
    match parseDigits rest with
    | some (v, len, rest2) =>
      if 2 ≤ len && rest.head? == some '0' then none
      else some (-(v : Int), rest2)
    | none => none
  | _ =>
    match parseDigits cs with
    | some (v, len, rest2) =>
      if 2 ≤ len && cs.head? == some '0' then none
      else some ((v : Int), rest2)
    | none => none

/-- Parses the body of a JSON string literal after its opening quote:
plain characters and the standard escape sequences. -/
def parseStrBody : Nat → List Char → List Char → Option (String × List Char)
  | 0, _, _ => none
  | _ + 1, _, [] => none
  | fuel + 1, acc, c :: rest =>
    if c == '"' then some (String.mk acc.reverse, rest)
    else if c == '\\' then
      match rest with
      | [] => none
      | e :: rest2 =>
        if e == '"' then parseStrBody fuel ('"' :: acc) rest2
        else if e == '\\' then parseStrBody fuel ('\\' :: acc) rest2
        else if e == '/' then parseStrBody fuel ('/' :: acc) rest2
        else if e == 'n' then parseStrBody fuel ('\n' :: acc) rest2
        else if e == 't' then parseStrBody fuel ('\t' :: acc) rest2
        else if e == 'r' then parseStrBody fuel ('\r' :: acc) rest2
        else if e == 'b' then parseStrBody fuel (Char.ofNat 8 :: acc) rest2
        else if e == 'f' then parseStrBody fuel (Char.ofNat 12 :: acc) rest2
        else if e == 'u' then
          match rest2 with
          | h1 :: h2 :: h3 :: h4 :: rest3 =>
            match hexVal h1, hexVal h2, hexVal h3, hexVal h4 with
            | some a, some b, some c2, some d =>
              parseStrBody fuel (Char.ofNat (((a * 16 + b) * 16 + c2) * 16 + d) :: acc) rest3
            | _, _, _, _ => none
          | _ => none
        else none
    else parseStrBody fuel (c :: acc) rest

mutual

/-- Parses one JSON value after skipping leading whitespace. -/
def parseValue : Nat → List Char → Option (PyJson × List Char)
  | 0, _ => none
  | fuel + 1, cs =>
    match skipWs cs with
    | [] => none
    | c :: rest =>
      if c == 'n' then
        match rest with
        | 'u' :: 'l' :: 'l' :: rest2 => some (.null, rest2)
        | _ => none
      else if c == 't' then
        match rest with
        | 'r' :: 'u' :: 'e' :: rest2 => some (.bool true, rest2)
        | _ => none
      else if c == 'f' then
        match rest with
        | 'a' :: 'l' :: 's' :: 'e' :: rest2 => some (.bool false, rest2)
        | _ => none
      else if c == '"' then
        match parseStrBody (rest.length + 1) [] rest with
        | some (s, rest2) => some (.str s, rest2)
        | none => none
      else if c == '[' then
        match skipWs rest with
        | ']' :: rest2 => some (.arr [], rest2)
        | _ => parseArrTail fuel rest []
      else if c == lbraceChar then
        match skipWs rest with
        | d :: rest2 =>
          if d == rbraceChar then some (.obj [], rest2) else parseObjTail fuel rest []
        | [] => none
      else
        match parseIntNumeral (c :: rest) with
        | some (v, rest2) => some (.num v, rest2)
        | none => none

/-- Parses the remaining elements of a JSON array, accumulator reversed. -/
def parseArrTail : Nat → List Char → List PyJson → Option (PyJson × List Char)
  | 0, _, _ => none
  | fuel + 1, cs, acc =>
    match parseValue fuel cs with
    | none => none
    | some (v, rest) =>
      match skipWs rest with
      | ',' :: rest2 => parseArrTail fuel rest2 (v :: acc)
      | ']' :: rest2 => some (.arr (v :: acc).reverse, rest2)
      | _ => none

/-- Parses the remaining key-value pairs of a JSON object, accumulator
reversed. -/
def parseObjTail : Nat → List Char → List (String × PyJson) →
    Option (PyJson × List Char)
  | 0, _, _ => none
  | fuel + 1, cs, acc =>
    match skipWs cs with
    | '"' :: rest =>
      match parseStrBody (rest.length + 1) [] rest with
      | none => none
      | some (k, rest2) =>
        match skipWs rest2 with
        | ':' :: rest3 =>
          match parseValue fuel rest3 with
          | none => none
          | some (v, rest4) =>
            match skipWs rest4 with
            | ',' :: rest5 => parseObjTail fuel rest5 ((k, v) :: acc)
            | d :: rest5 =>
              if d == rbraceChar then some (.obj ((k, v) :: acc).reverse, rest5)
              else none
            | [] => none
        | _ => none
    | _ => none

end

/-- Sequence of save_message calls for one conversation: returns the final
store and the list of assigned indices in call order.  Each list entry
carries the role, the text and the created_at timestamp of one call. -/
def runAppends : DB → String → List (String × String × String) → DB × List Int
  | db, _, [] => (db, [])
  | db, cid, (r, t, now) :: rest =>
    let res := save_message db cid r t now
    let res2 := runAppends res.1 cid rest
    (res2.1, res.2 :: res2.2)

/-- Concrete message row used by the evaluation stores below. -/
def msgW (i : Nat) (cid : String) (j : Int) (arch : Bool) : Message :=
  ⟨i, cid, j, "user", "m", arch, "t0"⟩

/-- Concrete store: five unarchived messages with indices 0 to 4 in
conversation c1 and two in conversation c2, no summary chunks. -/
def dbW : DB :=
  ⟨[⟨"c1", "u1", "general", none, ""⟩],
   [msgW 1 "c1" 0 false, msgW 2 "c1" 1 false, msgW 3 "c1" 2 false,
    msgW 4 "c1" 3 false, msgW 5 "c1" 4 false, msgW 6 "c2" 0 false,
    msgW 7 "c2" 1 false],
   [], 8, 1⟩

/-- Model of Python str.strip: drops leading and trailing whitespace. -/
def pyStrip (s : String) : String :=
  String.mk (((skipWs s.data).reverse |> skipWs).reverse)

/-- Model of Python json.loads on a string: parse one JSON value, then require
only whitespace to remain. -/
def json_loads (s : String) : Option PyJson :=
  match parseValue (s.data.length + 2) s.data with
  | some (v, rest) => if (skipWs rest).isEmpty then some v else none
  | none => none

/-- Case-insensitive literal match: returns the input after the literal when
the input starts with it, modelling re.IGNORECASE on a literal. -/
def stripLitCI : List Char → List Char → Option (List Char)
  | [], cs => some cs
  | _ :: _, [] => none
  | p :: ps, c :: cs => if c.toLower == p.toLower then stripLitCI ps cs else none

/-- Case-insensitive substring containment. -/
def containsCI (hay needle : List Char) : Bool :=
  match hay with
  | [] => (stripLitCI needle []).isSome
  | _ :: rest => (stripLitCI needle hay).isSome || containsCI rest needle

/-- Three backticks, the fence delimiter of the first two regex patterns. -/
def fenceChars : List Char := [backtickChar, backtickChar, backtickChar]

/-- Tests for optional whitespace followed by a closing fence, the regex
suffix after the captured group in the fenced patterns. -/
def wsFenceAt (cs : List Char) : Option (List Char) :=
  stripLitCI fenceChars (skipWs cs)

/-- Lazy body scan of the fenced patterns: the group is a left brace, then the
fewest characters whose following right brace is succeeded by optional
whitespace and a closing fence, matching the reluctant quantifier between the
braces.  Returns the captured group and the input after the closing fence. -/
def lazyBraceBody : Nat → List Char → List Char → Option (String × List Char)
  | 0, _, _ => none
  | _ + 1, _, [] => none
  | fuel + 1, acc, c :: rest =>
    if c == rbraceChar then
      match wsFenceAt rest with
      | some after => some (String.mk (lbraceChar :: (c :: acc).reverse), after)
      | none => lazyBraceBody fuel (c :: acc) rest
    else lazyBraceBody fuel (c :: acc) rest

/-- Attempts the fenced pattern at the current position: an opening fence,
the literal json tag when required, optional whitespace, then a braced group
closed by optional whitespace and a closing fence. -/
def tryFenceAt (tag : Bool) (cs : List Char) : Option (String × List Char) :=
  match stripLitCI (fenceChars ++ (if tag then String.toList "json" else [])) cs with
  | none => none
  | some afterOpen =>
    match skipWs afterOpen with
    | c :: rest =>
      if c == lbraceChar then lazyBraceBody (rest.length + 1) [] rest else none
    | [] => none

/-- Model of re.findall for the two fenced patterns: scan left to right,
capture each leftmost match, continue after its end. -/
def scanFenced : Nat → Bool → List Char → List String
  | 0, _, _ => []
  | _ + 1, _, [] => []
  | fuel + 1, tag, c :: rest =>
    match tryFenceAt tag (c :: rest) with
    | some (grp, after) => grp :: scanFenced fuel tag after
    | none => scanFenced fuel tag rest

/-- Quoted tool_groups literal required inside the third pattern. -/
def quotedToolGroups : List Char := '"' :: (String.toList "tool_groups" ++ ['"'])

/-- Model of re.findall for the third pattern: a brace-free braced group
containing the quoted tool_groups literal. -/
def scanToolGroups : Nat → List Char → List String
  | 0, _ => []
  | _ + 1, [] => []
  | fuel + 1, c :: rest =>
    if c == lbraceChar then
      let body := rest.takeWhile (fun d => !(d == lbraceChar || d == rbraceChar))
      match rest.drop body.length with
      | d :: rest2 =>
        if d == rbraceChar && containsCI body quotedToolGroups then
          String.mk (lbraceChar :: (body ++ [rbraceChar])) :: scanToolGroups fuel rest2
        else scanToolGroups fuel rest
      | [] => []
    else scanToolGroups fuel rest

/-- All candidate fragments produced by the three fallback patterns of
extract_json_from_response, in pattern order then match order. -/
def fallbackCandidates (response : String) : List String :=
  let cs := response.data
  let fuel := cs.length + 1
  scanFenced fuel true cs ++ scanFenced fuel false cs ++ scanToolGroups fuel cs

/-- Embedding of extract_json_from_response (src/utils/chat_history.py lines
239-264): try json.loads on the stripped response; on parse failure try
json.loads on each stripped fallback fragment in order; return an empty dict
when everything fails.  The Python function returns whatever json.loads
returns, whatever its type. -/
def extract_json_from_response (response : String) : PyJson :=
  match json_loads (pyStrip response) with
  | some v => v
  | none =>
    match (fallbackCandidates response).findSome? (fun m => json_loads (pyStrip m)) with
    | some v => v
    | none => PyJson.obj []

/-! Helper lemmas shared by several claim proofs. -/

lemma DB.eq_of_fields {d1 d2 : DB}
    (h1 : d1.conversations = d2.conversations) (h2 : d1.messages = d2.messages)
    (h3 : d1.summaries = d2.summaries) (h4 : d1.next_message_id = d2.next_message_id)
    (h5 : d1.next_summary_id = d2.next_summary_id) : d1 = d2 := by
  cases d1; cases d2; simp_all

lemma le_foldr_max (init : Int) (l : List Int) : init ≤ l.foldr max init := by
  induction l with
  | nil => exact le_rfl
  | cons hd tl ih => exact le_trans ih (le_max_right hd _)

lemma mem_le_foldr_max {x : Int} {l : List Int} (init : Int) (hx : x ∈ l) :
    x ≤ l.foldr max init := by
  induction l with
  | nil => cases hx
  | cons hd tl ih =>
    rcases List.mem_cons.mp hx with h | h
    · subst h; exact le_max_left _ _
    · exact le_trans (ih h) (le_max_right hd _)

lemma foldr_max_le {b init : Int} {l : List Int} (hl : ∀ x ∈ l, x ≤ b)
    (hinit : init ≤ b) : l.foldr max init ≤ b := by
  induction l with
  | nil => exact hinit
  | cons hd tl ih =>
    exact max_le (hl hd (List.mem_cons_self hd tl))
      (ih (fun x hx => hl x (List.mem_cons_of_mem hd hx)))

/-- C10: the claim states that extract_json_from_response always returns a
dictionary.  The code, matching its own docstring and Dict return annotation,
is expected to produce a dict, but at input "[1, 2]" the first json.loads
call succeeds on a JSON array and the code returns that array (a Python
list), not a dictionary. -/
theorem extract_json_from_response_nondict :
    extract_json_from_response "[1, 2]" = PyJson.arr [PyJson.num 1, PyJson.num 2] ∧
    (extract_json_from_response "[1, 2]").isObj = false :=
  ⟨rfl, rfl⟩

/-- C6 counterexample: set_running_summary against a conversation id with no
row is a bare UPDATE matching zero rows; on the empty store it returns the
store unchanged, with no error of any kind, while the claim demands a
NotFoundError instead of exactly this silent unchanged outcome.  The input
store is reachable (it is the freshly created database). -/
theorem set_running_summary_missing_cex :
    conversationExists DB.empty "c1" = false ∧
    set_running_summary DB.empty "c1" "hello" = DB.empty :=
  ⟨rfl, rfl⟩

/-- C6 amended: updating the running summary of a non-existent conversation
raises nothing and leaves the store unchanged, and reading it yields the
empty string; no NotFoundError (or any error path) exists in the code. -/
theorem set_running_summary_missing_silent (db : DB) (cid s : String)
    (h : conversationExists db cid = false) :
    set_running_summary db cid s = db ∧ get_running_summary db cid = "" := by
  have hall : ∀ c ∈ db.conversations, (c.id == cid) = false := by
    intro c hc
    by_contra hne
    have : db.conversations.any (fun c => c.id == cid) = true :=
      List.any_eq_true.mpr ⟨c, hc, by revert hne; cases (c.id == cid) <;> simp⟩
    rw [conversationExists] at h
    rw [h] at this
    cases this
  constructor
  · unfold set_running_summary updateConv
    refine DB.eq_of_fields ?_ rfl rfl rfl rfl
    show db.conversations.map _ = db.conversations
    calc db.conversations.map
          (fun c => if c.id == cid then { c with running_summary := s } else c)
        = db.conversations.map id := by
          apply List.map_congr_left
          intro c hc
          simp [hall c hc]
      _ = db.conversations := List.map_id _
  · unfold get_running_summary get_conversation
    have : db.conversations.find? (fun c => c.id == cid) = none :=
      List.find?_eq_none.mpr (fun c hc => by simp [hall c hc])
    rw [this]

/-- C6 amended witness at the empty store. -/
theorem set_running_summary_missing_silent_witness :
    set_running_summary DB.empty "nope" "s" = DB.empty ∧
    get_running_summary DB.empty "nope" = "" :=
  set_running_summary_missing_silent DB.empty "nope" "s" rfl

/-- C7: when the external summarizer call fails (outcome none), the compaction
cycle leaves the store exactly unchanged, so the batch stays eligible; and a
later retry with a succeeding call produces exactly the state a first-time
success would have produced. -/
theorem compaction_cycle_failure_noop (db : DB) (cid text now now2 : String) :
    compaction_cycle db cid none now = db ∧
    compaction_cycle (compaction_cycle db cid none now) cid (some text) now2 =
      compaction_cycle db cid (some text) now2 := by
  have h1 : compaction_cycle db cid none now = db := by
    unfold compaction_cycle
    by_cases hb : (next_four_unarchived db cid).isEmpty <;> simp [hb]
  exact ⟨h1, by rw [h1]⟩

lemma archive_ids_eq (db : DB) (ids : List Nat) :
    archive_ids db ids =
      { db with
          messages := db.messages.map
            (fun m => if m.id ∈ ids then { m with archived := true } else m) } := by
  unfold archive_ids
  rcases eq_or_ne ids [] with h | h
  · subst h
    simp
  · simp [h]

lemma archive_ids_messages (db : DB) (ids : List Nat) :
    (archive_ids db ids).messages = db.messages.map
      (fun m => if m.id ∈ ids then { m with archived := true } else m) := by
  rw [archive_ids_eq]

lemma archive_ids_conversations (db : DB) (ids : List Nat) :
    (archive_ids db ids).conversations = db.conversations := by
  rw [archive_ids_eq]

lemma archive_ids_summaries (db : DB) (ids : List Nat) :
    (archive_ids db ids).summaries = db.summaries := by
  rw [archive_ids_eq]

lemma zip_map_self {α β : Type} (f : α → β) (l : List α) :
    l.zip (l.map f) = l.map (fun a => (a, f a)) := by
  induction l with
  | nil => rfl
  | cons hd tl ih => simp [ih]

/-- C4: archive_ids is idempotent, a no-op on the empty id list, touches no
other table, keeps the message count, and rewrites each message row in place,
setting archived exactly on the rows whose id is listed while preserving
every other field. -/
theorem archive_ids_idempotent_exact (db : DB) (ids : List Nat) :
    archive_ids (archive_ids db ids) ids = archive_ids db ids ∧
    archive_ids db [] = db ∧
    (archive_ids db ids).conversations = db.conversations ∧
    (archive_ids db ids).summaries = db.summaries ∧
    (archive_ids db ids).messages.length = db.messages.length ∧
    ∀ p ∈ db.messages.zip (archive_ids db ids).messages,
      p.2.id = p.1.id ∧ p.2.conversation_id = p.1.conversation_id ∧
      p.2.idx = p.1.idx ∧ p.2.role = p.1.role ∧ p.2.text = p.1.text ∧
      p.2.created_at = p.1.created_at ∧
      p.2.archived = (p.1.archived || decide (p.1.id ∈ ids)) := by
  refine ⟨?_, ?_, ?_, ?_, ?_, ?_⟩
  · rw [archive_ids_eq (archive_ids db ids) ids]
    refine DB.eq_of_fields rfl ?_ rfl rfl rfl
    show (archive_ids db ids).messages.map _ = (archive_ids db ids).messages
    rw [archive_ids_messages, List.map_map]
    apply List.map_congr_left
    intro m _
    by_cases hm : m.id ∈ ids <;> simp [Function.comp, hm]
  · rw [archive_ids_eq]
    refine DB.eq_of_fields rfl ?_ rfl rfl rfl
    show db.messages.map _ = db.messages
    simp
  · rw [archive_ids_conversations]
  · rw [archive_ids_summaries]
  · rw [archive_ids_messages]
    exact List.length_map _ _
  · intro p hp
    rw [archive_ids_messages, zip_map_self] at hp
    obtain ⟨m, _, hm⟩ := List.mem_map.mp hp
    subst hm
    by_cases hmem : m.id ∈ ids <;> simp [hmem]

/-- C5: upsert_conversation with no extra fields creates the row with schema
defaults when the conversation is absent, is a complete no-op when it already
exists, and a repeated call leaves the store of the first call unchanged,
whatever user id the second call passes. -/
theorem upsert_conversation_idempotent (db : DB) (cid uid uid2 : String) :
    (conversationExists db cid = false →
      get_conversation (upsert_conversation db cid uid []) cid =
        some ⟨cid, uid, "general", none, ""⟩) ∧
    (conversationExists db cid = true → upsert_conversation db cid uid [] = db) ∧
    upsert_conversation (upsert_conversation db cid uid []) cid uid2 [] =
      upsert_conversation db cid uid [] := by
  have hnofields : ∀ (d : DB), upsert_conversation d cid uid [] =
      (if conversationExists d cid then d
       else { d with conversations := d.conversations ++ [⟨cid, uid, "general", none, ""⟩] }) := by
    intro d
    rfl
  refine ⟨?_, ?_, ?_⟩
  · intro h
    rw [hnofields, h]
    simp only [Bool.false_eq_true, if_false]
    unfold get_conversation
    have hnone : db.conversations.find? (fun c => c.id == cid) = none := by
      refine List.find?_eq_none.mpr (fun c hc => ?_)
      by_contra hne
      have : conversationExists db cid = true := by
        unfold conversationExists
        exact List.any_eq_true.mpr ⟨c, hc, by revert hne; cases (c.id == cid) <;> simp⟩
      rw [h] at this
      cases this
    show ((db.conversations ++
        [(⟨cid, uid, "general", none, ""⟩ : Conversation)]).find? (fun c => c.id == cid)) = _
    rw [List.find?_append, hnone]
    simp
  · intro h
    rw [hnofields, h]
    rfl
  · have hex : conversationExists (upsert_conversation db cid uid []) cid = true := by
      rw [hnofields]
      by_cases h : conversationExists db cid
      · rw [if_pos h]
        exact h
      · rw [if_neg h]
        unfold conversationExists
        rw [List.any_append]
        simp [conversationExists]
    have h2 : upsert_conversation (upsert_conversation db cid uid []) cid uid2 [] =
        (if conversationExists (upsert_conversation db cid uid []) cid
         then upsert_conversation db cid uid []
         else { upsert_conversation db cid uid [] with
                conversations := (upsert_conversation db cid uid []).conversations ++
                  [⟨cid, uid2, "general", none, ""⟩] }) := rfl
    rw [h2, hex]
    simp

/-- C5 witness: a fresh conversation is created with defaults, and repeating
the call preserves the store. -/
theorem upsert_conversation_idempotent_witness :
    get_conversation (upsert_conversation DB.empty "c1" "u1" []) "c1" =
      some ⟨"c1", "u1", "general", none, ""⟩ ∧
    upsert_conversation (upsert_conversation DB.empty "c1" "u1" []) "c1" "u1" [] =
      upsert_conversation DB.empty "c1" "u1" [] :=
  ⟨(upsert_conversation_idempotent DB.empty "c1" "u1" "u2").1 rfl,
   (upsert_conversation_idempotent (upsert_conversation DB.empty "c1" "u1" [])
      "c1" "u1" "u1").2.1 (by decide)⟩

/-- C4 witness at a concrete store and id list, archiving messages 1 and 3. -/
theorem archive_ids_idempotent_exact_witness :
    archive_ids (archive_ids dbW [1, 3]) [1, 3] = archive_ids dbW [1, 3] ∧
    (msgW 1 "c1" 0 true).archived =
      ((msgW 1 "c1" 0 false).archived || decide ((msgW 1 "c1" 0 false).id ∈ [1, 3])) :=
  ⟨(archive_ids_idempotent_exact dbW [1, 3]).1,
   ((archive_ids_idempotent_exact dbW [1, 3]).2.2.2.2.2
      (msgW 1 "c1" 0 false, msgW 1 "c1" 0 true) (by decide)).2.2.2.2.2.2⟩

lemma messagesOf_save (db : DB) (cid r t now : String) :
    messagesOf (save_message db cid r t now).1 cid =
      ⟨db.next_message_id, cid, maxIdx db cid + 1, r, t, false, now⟩ ::
        messagesOf db cid := by
  unfold messagesOf save_message
  simp

lemma maxIdx_save (db : DB) (cid r t now : String) :
    maxIdx (save_message db cid r t now).1 cid = maxIdx db cid + 1 := by
  have h : maxIdx (save_message db cid r t now).1 cid =
      max (maxIdx db cid + 1) (maxIdx db cid) := by
    unfold maxIdx
    rw [messagesOf_save]
    rfl
  rw [h, max_eq_left (by omega)]

lemma save_message_snd (db : DB) (cid r t now : String) :
    (save_message db cid r t now).2 = maxIdx db cid + 1 := rfl

lemma runAppends_indices (cid : String) (msgs : List (String × String × String)) :
    ∀ db : DB, (runAppends db cid msgs).2 =
      (List.range msgs.length).map (fun j : Nat => maxIdx db cid + 1 + (j : Int)) := by
  induction msgs with
  | nil => intro db; rfl
  | cons hd tl ih =>
    intro db
    obtain ⟨r, t, now⟩ := hd
    show (save_message db cid r t now).2 ::
        (runAppends (save_message db cid r t now).1 cid tl).2 = _
    rw [ih, save_message_snd, maxIdx_save, List.length_cons, List.range_succ_eq_map,
      List.map_cons, List.map_map]
    refine congrArg₂ _ (by omega) ?_
    apply List.map_congr_left
    intro j _
    show maxIdx db cid + 1 + 1 + (j : Int) = maxIdx db cid + 1 + ((j + 1 : Nat) : Int)
    push_cast
    ring

/-- C1: starting from a store with no messages for the conversation, a
sequence of n save_message calls returns exactly the indices 0, 1, ..., n-1
in call order, with no gaps and no duplicates; each call assigns the maximum
existing index plus one, starting at 0. -/
theorem save_message_sequential_indices (db : DB) (cid : String)
    (msgs : List (String × String × String)) (h : messagesOf db cid = []) :
    (runAppends db cid msgs).2 =
      (List.range msgs.length).map (fun j : Nat => (j : Int)) := by
  have hmax : maxIdx db cid = -1 := by
    unfold maxIdx
    rw [h]
    rfl
  rw [runAppends_indices, hmax]
  apply List.map_congr_left
  intro j _
  omega

/-- C1 witness: three appends to the fresh store return indices 0, 1, 2. -/
theorem save_message_sequential_indices_witness :
    (runAppends DB.empty "c1"
      [("user", "a", "t1"), ("assistant", "b", "t2"), ("user", "c", "t3")]).2 =
      (List.range 3).map (fun j : Nat => (j : Int)) :=
  save_message_sequential_indices DB.empty "c1" _ rfl

/-- C9: get_session_history with a non-positive last_n_message formats the
entire history (not zero messages); with a positive one it formats exactly
the trailing last_n_message entries; and an empty history yields the string
"No history available.". -/
theorem get_session_history_nonpositive_full (history : List HistEntry) (n : Int) :
    (n ≤ 0 → get_session_history history n =
      (if history.isEmpty then "No history available."
       else String.intercalate "\n" (history.map formatEntry))) ∧
    (0 < n → get_session_history history n =
      (if history.isEmpty then "No history available."
       else String.intercalate "\n"
         ((history.drop (history.length - n.toNat)).map formatEntry))) ∧
    (history = [] → get_session_history history n = "No history available.") := by
  refine ⟨?_, ?_, ?_⟩
  · intro h
    unfold get_session_history
    rw [if_neg (not_lt.mpr h)]
  · intro h
    unfold get_session_history
    rw [if_pos h]
    rcases eq_or_ne history [] with he | he
    · subst he
      simp
    · have h1 : history.isEmpty = false := by
        cases history with
        | nil => cases he rfl
        | cons a l => rfl
      have h2 : (history.drop (history.length - n.toNat)).isEmpty = false := by
        have hlen : 0 < history.length := List.length_pos.mpr he
        have hn : 1 ≤ n.toNat := by omega
        rcases eq_or_ne (history.drop (history.length - n.toNat)) [] with hd | hd
        · have := List.drop_eq_nil_iff.mp hd
          omega
        · cases hdrop : history.drop (history.length - n.toNat) with
          | nil => cases hd hdrop
          | cons a l => rfl
      simp [h1, h2]
  · intro h
    subst h
    unfold get_session_history
    rcases le_or_lt n 0 with h | h
    · rw [if_neg (not_lt.mpr h)]
      rfl
    · rw [if_pos h]
      simp

/-- C9 witness: a two-entry history with last_n_message zero formats both
entries, and with last_n_message one formats only the trailing entry. -/
theorem get_session_history_nonpositive_full_witness :
    get_session_history [⟨"user", "hello", "t1", "s"⟩, ⟨"assistant", "hi", "t2", "s"⟩] 0 =
      (if ([⟨"user", "hello", "t1", "s"⟩,
            (⟨"assistant", "hi", "t2", "s"⟩ : HistEntry)] : List HistEntry).isEmpty
       then "No history available."
       else String.intercalate "\n"
         (([⟨"user", "hello", "t1", "s"⟩, ⟨"assistant", "hi", "t2", "s"⟩] :
            List HistEntry).map formatEntry)) :=
  (get_session_history_nonpositive_full
    [⟨"user", "hello", "t1", "s"⟩, ⟨"assistant", "hi", "t2", "s"⟩] 0).1 (by decide)

lemma sortByIdxAsc_sorted (l : List Message) :
    (sortByIdxAsc l).Pairwise Message.leIdx :=
  List.sorted_insertionSort Message.leIdx l

lemma sortByIdxAsc_perm (l : List Message) : (sortByIdxAsc l).Perm l :=
  List.perm_insertionSort Message.leIdx l

lemma sortByIdxDesc_sorted (l : List Message) :
    (sortByIdxDesc l).Pairwise Message.geIdx :=
  List.sorted_insertionSort Message.geIdx l

lemma sortByIdxDesc_perm (l : List Message) : (sortByIdxDesc l).Perm l :=
  List.perm_insertionSort Message.geIdx l

lemma pairwise_take_drop {r : Message → Message → Prop} {l : List Message}
    (h : l.Pairwise r) (n : Nat) :
    ∀ a ∈ l.take n, ∀ b ∈ l.drop n, r a b := by
  have hsplit : (l.take n ++ l.drop n).Pairwise r := by
    rw [List.take_append_drop]
    exact h
  exact (List.pairwise_append.mp hsplit).2.2

/-- C2: next_four_unarchived returns either the empty list or exactly four
messages; it returns the four oldest unarchived messages of the conversation
in ascending index order when at least four exist, and the empty list when
fewer than four exist, never a non-empty list shorter than four. -/
theorem next_four_unarchived_batch_spec (db : DB) (cid : String) :
    (next_four_unarchived db cid = [] ∨ (next_four_unarchived db cid).length = 4) ∧
    ((unarchivedOf db cid).length < 4 → next_four_unarchived db cid = []) ∧
    (4 ≤ (unarchivedOf db cid).length →
      next_four_unarchived db cid = (sortByIdxAsc (unarchivedOf db cid)).take 4) ∧
    List.Sorted Message.leIdx (next_four_unarchived db cid) ∧
    (∀ b ∈ unarchivedOf db cid, b ∉ next_four_unarchived db cid →
      ∀ a ∈ next_four_unarchived db cid, a.idx ≤ b.idx) := by
  have hlen : (sortByIdxAsc (unarchivedOf db cid)).length = (unarchivedOf db cid).length :=
    (sortByIdxAsc_perm _).length_eq
  by_cases h4 : 4 ≤ (unarchivedOf db cid).length
  · have hcond : ((sortByIdxAsc (unarchivedOf db cid)).take 4).length = 4 := by
      rw [List.length_take, hlen]
      omega
    have htake : next_four_unarchived db cid =
        (sortByIdxAsc (unarchivedOf db cid)).take 4 := by
      unfold next_four_unarchived
      rw [if_pos hcond]
    refine ⟨Or.inr (by rw [htake]; exact hcond), fun hlt => absurd h4 (by omega),
      fun _ => htake, ?_, ?_⟩
    · rw [htake]
      exact (sortByIdxAsc_sorted _).sublist (List.take_sublist _ _)
    · intro b hb hnb a ha
      rw [htake] at hnb ha
      have hbs : b ∈ sortByIdxAsc (unarchivedOf db cid) :=
        (sortByIdxAsc_perm _).mem_iff.mpr hb
      have hbs2 : b ∈ (sortByIdxAsc (unarchivedOf db cid)).take 4 ++
          (sortByIdxAsc (unarchivedOf db cid)).drop 4 := by
        rw [List.take_append_drop]
        exact hbs
      rcases List.mem_append.mp hbs2 with hmem | hmem
      · exact absurd hmem hnb
      · exact pairwise_take_drop (sortByIdxAsc_sorted _) 4 a ha b hmem
  · have hcond : ((sortByIdxAsc (unarchivedOf db cid)).take 4).length ≠ 4 := by
      rw [List.length_take, hlen]
      omega
    have hnil : next_four_unarchived db cid = [] := by
      unfold next_four_unarchived
      rw [if_neg hcond]
    refine ⟨Or.inl hnil, fun _ => hnil, fun hge => absurd hge h4, ?_, ?_⟩
    · rw [hnil]
      exact List.Pairwise.nil
    · intro b hb hnb a ha
      rw [hnil] at ha
      cases ha

/-- C2 witness: with five unarchived messages the batch is the four oldest in
ascending order; with two unarchived messages the result is empty. -/
theorem next_four_unarchived_batch_spec_witness :
    next_four_unarchived dbW "c1" = (sortByIdxAsc (unarchivedOf dbW "c1")).take 4 ∧
    next_four_unarchived dbW "c2" = [] :=
  ⟨(next_four_unarchived_batch_spec dbW "c1").2.2.1 (by decide),
   (next_four_unarchived_batch_spec dbW "c2").2.1 (by decide)⟩

/-- C3: get_unarchived returns at most limit messages, in ascending index
order, each of them unarchived and of the requested conversation, and the
selection is the most recent window: every unarchived message left out has an
index at most that of every returned message. -/
theorem get_unarchived_recent_ascending (db : DB) (cid : String) (limit : Nat) :
    (get_unarchived db cid limit).length ≤ limit ∧
    List.Sorted Message.leIdx (get_unarchived db cid limit) ∧
    (∀ a ∈ get_unarchived db cid limit, a ∈ unarchivedOf db cid) ∧
    (∀ b ∈ unarchivedOf db cid, b ∉ get_unarchived db cid limit →
      ∀ a ∈ get_unarchived db cid limit, b.idx ≤ a.idx) := by
  have hmem : ∀ x : Message, x ∈ get_unarchived db cid limit ↔
      x ∈ (sortByIdxDesc (unarchivedOf db cid)).take limit := by
    intro x
    unfold get_unarchived
    exact List.mem_reverse
  refine ⟨?_, ?_, ?_, ?_⟩
  · unfold get_unarchived
    rw [List.length_reverse, List.length_take]
    omega
  · show List.Sorted Message.leIdx
      ((sortByIdxDesc (unarchivedOf db cid)).take limit).reverse
    refine List.pairwise_reverse.mpr ?_
    exact (sortByIdxDesc_sorted _).sublist (List.take_sublist _ _)
  · intro a ha
    have := (hmem a).mp ha
    exact (sortByIdxDesc_perm _).mem_iff.mp ((List.take_sublist _ _).mem this)
  · intro b hb hnb a ha
    have hbs : b ∈ sortByIdxDesc (unarchivedOf db cid) :=
      (sortByIdxDesc_perm _).mem_iff.mpr hb
    have hbs2 : b ∈ (sortByIdxDesc (unarchivedOf db cid)).take limit ++
        (sortByIdxDesc (unarchivedOf db cid)).drop limit := by
      rw [List.take_append_drop]
      exact hbs
    rcases List.mem_append.mp hbs2 with hmem2 | hmem2
    · exact absurd ((hmem b).mpr hmem2) hnb
    · exact pairwise_take_drop (sortByIdxDesc_sorted _) limit a ((hmem a).mp ha) b hmem2

/-- C3 witness: at limit two, the oldest unarchived message of the concrete
store is left out and its index is at most that of a returned message. -/
theorem get_unarchived_recent_ascending_witness :
    (msgW 1 "c1" 0 false).idx ≤ (msgW 4 "c1" 3 false).idx :=
  (get_unarchived_recent_ascending dbW "c1" 2).2.2.2 (msgW 1 "c1" 0 false) (by decide)
    (by decide) (msgW 4 "c1" 3 false) (by decide)

/-- C8 counterexample: the claim asserts the tiling invariant for every
conversation state reachable by the store operations, appendSummaryChunk
included; but append_chunk_summary validates nothing, and one call on the
fresh store inserts a chunk starting at 2, whose ranges do not tile a
initial segment of the index space from 0. -/
theorem append_chunk_summary_breaks_tiling_cex :
    chunksContiguous (append_chunk_summary DB.empty "c1" 2 7 "s" "t1") "c1" = false := by
  decide

lemma contiguousFrom_append (k : Int) (l : List SummaryRow) (x : SummaryRow) :
    contiguousFrom k (l ++ [x]) =
      (contiguousFrom k l && (x.start_idx == tilingEndFrom k l)) := by
  induction l generalizing k with
  | nil => simp [contiguousFrom, tilingEndFrom]
  | cons hd tl ih => simp [contiguousFrom, tilingEndFrom, ih, Bool.and_assoc]

lemma tilingEndFrom_append (k : Int) (l : List SummaryRow) (x : SummaryRow) :
    tilingEndFrom k (l ++ [x]) = x.end_idx := by
  induction l generalizing k with
  | nil => rfl
  | cons hd tl ih => exact ih hd.end_idx

lemma set_running_summary_summaries (db : DB) (cid s : String) :
    (set_running_summary db cid s).summaries = db.summaries := rfl

lemma set_running_summary_messages (db : DB) (cid s : String) :
    (set_running_summary db cid s).messages = db.messages := rfl

lemma append_chunk_summary_messages (db : DB) (cid : String) (s e : Int)
    (summary now : String) :
    (append_chunk_summary db cid s e summary now).messages = db.messages := rfl

lemma chunksOf_set_running (db : DB) (cid s cid2 : String) :
    chunksOf (set_running_summary db cid s) cid2 = chunksOf db cid2 := rfl

lemma chunksOf_archive (db : DB) (ids : List Nat) (cid : String) :
    chunksOf (archive_ids db ids) cid = chunksOf db cid := by
  unfold chunksOf
  rw [archive_ids_summaries]

lemma chunksOf_append (db : DB) (cid : String) (s e : Int) (text now : String) :
    chunksOf (append_chunk_summary db cid s e text now) cid =
      chunksOf db cid ++ [⟨db.next_summary_id, cid, s, e, text, now⟩] := by
  unfold chunksOf append_chunk_summary
  simp [List.filter_append]

lemma mem_messagesOf {db : DB} {cid : String} {m : Message} :
    m ∈ messagesOf db cid ↔ m ∈ db.messages ∧ m.conversation_id = cid := by
  unfold messagesOf
  rw [List.mem_filter]
  simp

lemma mem_unarchivedOf {db : DB} {cid : String} {m : Message} :
    m ∈ unarchivedOf db cid ↔
      m ∈ db.messages ∧ m.conversation_id = cid ∧ m.archived = false := by
  unfold unarchivedOf
  rw [List.mem_filter]
  simp [Bool.and_eq_true]

lemma unarchived_mem_messagesOf {db : DB} {cid : String} {m : Message}
    (h : m ∈ unarchivedOf db cid) : m ∈ messagesOf db cid := by
  obtain ⟨h1, h2, _⟩ := mem_unarchivedOf.mp h
  exact mem_messagesOf.mpr ⟨h1, h2⟩

lemma storeWF_unpack {db : DB} {cid : String} (h : storeWF db cid = true) :
    chunksContiguous db cid = true ∧
    tilingEnd db cid = highestArchivedIdx db cid + 1 ∧
    (∀ m ∈ messagesOf db cid, m.archived = decide (m.idx < tilingEnd db cid)) ∧
    (∀ j : Nat, j < (maxIdx db cid + 1).toNat →
      ∃ m ∈ messagesOf db cid, m.idx = (j : Int)) ∧
    (db.messages.map Message.id).Nodup := by
  unfold storeWF at h
  simp only [Bool.and_eq_true, List.all_eq_true, List.any_eq_true, beq_iff_eq,
    List.mem_range, decide_eq_true_eq] at h
  obtain ⟨⟨⟨⟨h1, h2⟩, h3⟩, h4⟩, h5⟩ := h
  exact ⟨h1, h2, h3, fun j hj => h4 j hj, h5⟩

lemma sorted_le_getLast {l : List Message} (h : l.Pairwise Message.leIdx)
    (hne : l ≠ []) : ∀ x ∈ l, x.idx ≤ (l.getLast hne).idx := by
  induction l with
  | nil => cases hne rfl
  | cons a t ih =>
    intro x hx
    rcases List.mem_cons.mp hx with hx | hx
    · subst hx
      cases t with
      | nil => exact le_rfl
      | cons b t2 =>
        rw [List.getLast_cons (by simp)]
        exact (List.pairwise_cons.mp h).1 _ (List.getLast_mem (by simp))
    · cases t with
      | nil => cases hx
      | cons b t2 =>
        rw [List.getLast_cons (by simp)]
        exact ih (List.pairwise_cons.mp h).2 (by simp) x hx

lemma messagesIdx_le_maxIdx {db : DB} {cid : String} {m : Message}
    (h : m ∈ messagesOf db cid) : m.idx ≤ maxIdx db cid :=
  mem_le_foldr_max (-1) (List.mem_map.mpr ⟨m, h, rfl⟩)

lemma highestArchived_ge (db : DB) (cid : String) : -1 ≤ highestArchivedIdx db cid :=
  le_foldr_max _ _

lemma next_four_take {db : DB} {cid : String}
    (h4 : 4 ≤ (unarchivedOf db cid).length) :
    next_four_unarchived db cid = (sortByIdxAsc (unarchivedOf db cid)).take 4 := by
  unfold next_four_unarchived
  rw [if_pos]
  rw [List.length_take, (sortByIdxAsc_perm _).length_eq]
  omega

lemma next_four_len {db : DB} {cid : String}
    (hne : next_four_unarchived db cid ≠ []) :
    4 ≤ (unarchivedOf db cid).length := by
  by_contra hlt
  apply hne
  unfold next_four_unarchived
  rw [if_neg]
  rw [List.length_take, (sortByIdxAsc_perm _).length_eq]
  omega

/-- C8 amended: the tiling invariant is not enforced by append_chunk_summary
itself; it holds for the states the compaction protocol maintains.  From any
store that is well formed for the conversation (chunks tile an initial
segment ending exactly one past the highest archived index, archived flags
agree with that bound, message indices are dense, ids unique), a compaction
cycle with a succeeding summarizer call leaves the chunk ranges contiguous
from 0 and ending exactly at highest archived index plus one: the ranges
exactly tile the archived region with no gaps or overlaps. -/
theorem compaction_cycle_preserves_tiling (db : DB) (cid text now : String)
    (hwf : storeWF db cid = true) :
    chunksContiguous (compaction_cycle db cid (some text) now) cid = true ∧
    tilingEnd (compaction_cycle db cid (some text) now) cid =
      highestArchivedIdx (compaction_cycle db cid (some text) now) cid + 1 := by
  obtain ⟨h1, h2, h3, h4, h5⟩ := storeWF_unpack hwf
  by_cases hb : (next_four_unarchived db cid).isEmpty
  · have hcc : compaction_cycle db cid (some text) now = db := by
      unfold compaction_cycle
      simp [hb]
    rw [hcc]
    exact ⟨h1, h2⟩
  · have hbne : next_four_unarchived db cid ≠ [] := by
      intro hnil
      rw [hnil] at hb
      exact hb rfl
    have h4len : 4 ≤ (unarchivedOf db cid).length := next_four_len hbne
    have htake := next_four_take h4len
    have hslen : (sortByIdxAsc (unarchivedOf db cid)).length =
        (unarchivedOf db cid).length := (sortByIdxAsc_perm _).length_eq
    obtain ⟨a, l, hs⟩ : ∃ a l, sortByIdxAsc (unarchivedOf db cid) = a :: l := by
      cases hsc : sortByIdxAsc (unarchivedOf db cid) with
      | nil =>
        rw [hsc] at hslen
        simp at hslen
        omega
      | cons a l => exact ⟨a, l, rfl⟩
    have hmem_s_u : ∀ x ∈ sortByIdxAsc (unarchivedOf db cid), x ∈ unarchivedOf db cid :=
      fun x hx => (sortByIdxAsc_perm _).mem_iff.mp hx
    have hAle : ∀ m ∈ unarchivedOf db cid, tilingEnd db cid ≤ m.idx := by
      intro m hm
      obtain ⟨hmem, hcid, harch⟩ := mem_unarchivedOf.mp hm
      have hh := h3 m (mem_messagesOf.mpr ⟨hmem, hcid⟩)
      rw [harch] at hh
      by_contra hlt
      rw [decide_eq_true (by omega : m.idx < tilingEnd db cid)] at hh
      cases hh
    have hA0 : 0 ≤ tilingEnd db cid := by
      have := highestArchived_ge db cid
      omega
    have hune : unarchivedOf db cid ≠ [] := by
      intro h
      rw [h] at h4len
      simp at h4len
    obtain ⟨m0, hm0⟩ := List.exists_mem_of_ne_nil _ hune
    have hAmax : tilingEnd db cid ≤ maxIdx db cid :=
      le_trans (hAle m0 hm0) (messagesIdx_le_maxIdx (unarchived_mem_messagesOf hm0))
    obtain ⟨m1, hm1mem, hm1idx⟩ := h4 (tilingEnd db cid).toNat (by omega)
    have hm1A : m1.idx = tilingEnd db cid := by
      rw [hm1idx]
      omega
    have hm1arch : m1.archived = false := by
      have hh := h3 m1 hm1mem
      rw [hm1A] at hh
      simpa using hh
    have hm1u : m1 ∈ unarchivedOf db cid := by
      obtain ⟨hmm, hcc2⟩ := mem_messagesOf.mp hm1mem
      exact mem_unarchivedOf.mpr ⟨hmm, hcc2, hm1arch⟩
    have hssorted := sortByIdxAsc_sorted (unarchivedOf db cid)
    rw [hs] at hssorted
    have hhead_le : ∀ x ∈ (a :: l), a.idx ≤ x.idx := by
      intro x hx
      rcases List.mem_cons.mp hx with hx | hx
      · subst hx
        exact le_rfl
      · exact (List.pairwise_cons.mp hssorted).1 x hx
    have haA : a.idx = tilingEnd db cid := by
      have h1le : tilingEnd db cid ≤ a.idx := by
        apply hAle
        apply hmem_s_u
        rw [hs]
        exact List.mem_cons_self a l
      have hm1s : m1 ∈ a :: l := by
        rw [← hs]
        exact (sortByIdxAsc_perm _).mem_iff.mpr hm1u
      have h2le : a.idx ≤ m1.idx := hhead_le m1 hm1s
      omega
    have hbatch : next_four_unarchived db cid = a :: l.take 3 := by
      rw [htake, hs]
      rfl
    have hbatch_sub_s : ∀ x ∈ next_four_unarchived db cid,
        x ∈ sortByIdxAsc (unarchivedOf db cid) := by
      intro x hx
      rw [htake] at hx
      exact (List.take_sublist _ _).mem hx
    have hbatch_sub_u : ∀ x ∈ next_four_unarchived db cid, x ∈ unarchivedOf db cid :=
      fun x hx => hmem_s_u x (hbatch_sub_s x hx)
    have hbatch_sub_msgs : ∀ x ∈ next_four_unarchived db cid, x ∈ db.messages :=
      fun x hx => (mem_unarchivedOf.mp (hbatch_sub_u x hx)).1
    have hbatch_sorted : (next_four_unarchived db cid).Pairwise Message.leIdx := by
      rw [htake]
      exact (sortByIdxAsc_sorted _).sublist (List.take_sublist _ _)
    have hlast_mem : (next_four_unarchived db cid).getLast hbne ∈
        next_four_unarchived db cid := List.getLast_mem hbne
    have hlast_max : ∀ x ∈ next_four_unarchived db cid,
        x.idx ≤ ((next_four_unarchived db cid).getLast hbne).idx :=
      sorted_le_getLast hbatch_sorted hbne
    have hlastA : tilingEnd db cid ≤ ((next_four_unarchived db cid).getLast hbne).idx :=
      hAle _ (hbatch_sub_u _ hlast_mem)
    have hgl : (next_four_unarchived db cid).getLast? =
        some ((next_four_unarchived db cid).getLast hbne) :=
      List.getLast?_eq_getLast _ hbne
    have hhd : (next_four_unarchived db cid).head? = some a := by
      rw [hbatch]
      rfl
    have hS : (Option.map Message.idx (next_four_unarchived db cid).head?).getD 0 =
        tilingEnd db cid := by
      rw [hhd]
      exact haA
    have hbfalse : (next_four_unarchived db cid).isEmpty = false := by
      cases hie : (next_four_unarchived db cid).isEmpty
      · rfl
      · exact absurd hie hb
    have hcc : compaction_cycle db cid (some text) now =
        set_running_summary (archive_ids (append_chunk_summary db cid
            ((Option.map Message.idx (next_four_unarchived db cid).head?).getD 0)
            ((Option.map Message.idx (next_four_unarchived db cid).getLast?).getD 0 + 1)
            text now)
          ((next_four_unarchived db cid).map Message.id)) cid
        (rollupOf (archive_ids (append_chunk_summary db cid
            ((Option.map Message.idx (next_four_unarchived db cid).head?).getD 0)
            ((Option.map Message.idx (next_four_unarchived db cid).getLast?).getD 0 + 1)
            text now)
          ((next_four_unarchived db cid).map Message.id)) cid) := by
      unfold compaction_cycle
      simp only [hbfalse, Bool.false_eq_true, if_false]
    have hchunks : chunksOf (compaction_cycle db cid (some text) now) cid =
        chunksOf db cid ++ [⟨db.next_summary_id, cid,
          (Option.map Message.idx (next_four_unarchived db cid).head?).getD 0,
          (Option.map Message.idx (next_four_unarchived db cid).getLast?).getD 0 + 1,
          text, now⟩] := by
      rw [hcc, chunksOf_set_running, chunksOf_archive, chunksOf_append]
    have hmsg : (compaction_cycle db cid (some text) now).messages =
        db.messages.map (fun m =>
          if m.id ∈ (next_four_unarchived db cid).map Message.id
          then { m with archived := true } else m) := by
      rw [hcc, set_running_summary_messages, archive_ids_messages,
        append_chunk_summary_messages]
    have hid_mem_batch : ∀ m ∈ db.messages,
        m.id ∈ (next_four_unarchived db cid).map Message.id →
        m ∈ next_four_unarchived db cid := by
      intro m hm hid
      obtain ⟨b, hbmem, hbid⟩ := List.mem_map.mp hid
      have heq : m = b :=
        List.inj_on_of_nodup_map h5 hm (hbatch_sub_msgs b hbmem) hbid.symm
      rw [heq]
      exact hbmem
    have hupper : ∀ x ∈ ((compaction_cycle db cid (some text) now).messages.filter
        (fun m => m.conversation_id == cid && m.archived)).map Message.idx,
        x ≤ ((next_four_unarchived db cid).getLast hbne).idx := by
      intro x hx
      obtain ⟨m2, hm2f, hm2idx⟩ := List.mem_map.mp hx
      obtain ⟨hm2mem, hp⟩ := List.mem_filter.mp hm2f
      rw [hmsg] at hm2mem
      obtain ⟨m, hm, hfm⟩ := List.mem_map.mp hm2mem
      by_cases hmem : m.id ∈ (next_four_unarchived db cid).map Message.id
      · have hmb : m ∈ next_four_unarchived db cid := hid_mem_batch m hm hmem
        have hidx : m2.idx = m.idx := by
          rw [← hfm]
          simp [hmem]
        rw [← hm2idx, hidx]
        exact hlast_max m hmb
      · have hm2m : m2 = m := by
          rw [← hfm]
          simp [hmem]
        subst hm2m
        rw [Bool.and_eq_true, beq_iff_eq] at hp
        obtain ⟨hpc, hpa⟩ := hp
        have hmm : m2 ∈ messagesOf db cid := mem_messagesOf.mpr ⟨hm, hpc⟩
        have hh := h3 m2 hmm
        rw [hpa] at hh
        have hlt : m2.idx < tilingEnd db cid := by
          by_contra hge
          rw [decide_eq_false (by omega : ¬ m2.idx < tilingEnd db cid)] at hh
          cases hh
        omega
    have hhigh_le : highestArchivedIdx (compaction_cycle db cid (some text) now) cid ≤
        ((next_four_unarchived db cid).getLast hbne).idx :=
      foldr_max_le hupper (by omega)
    have hlast_id_mem : ((next_four_unarchived db cid).getLast hbne).id ∈
        (next_four_unarchived db cid).map Message.id :=
      List.mem_map.mpr ⟨_, hlast_mem, rfl⟩
    have hflast : (fun m =>
        if m.id ∈ (next_four_unarchived db cid).map Message.id
        then { m with archived := true } else m)
          ((next_four_unarchived db cid).getLast hbne) =
        { (next_four_unarchived db cid).getLast hbne with archived := true } := by
      simp [hlast_id_mem]
    have hlast_in_db :
        ({ (next_four_unarchived db cid).getLast hbne with archived := true } : Message) ∈
          (compaction_cycle db cid (some text) now).messages := by
      rw [hmsg]
      exact List.mem_map.mpr ⟨_, hbatch_sub_msgs _ hlast_mem, hflast⟩
    have hlast_in_filter :
        ({ (next_four_unarchived db cid).getLast hbne with archived := true } : Message) ∈
          (compaction_cycle db cid (some text) now).messages.filter
            (fun m => m.conversation_id == cid && m.archived) := by
      rw [List.mem_filter]
      refine ⟨hlast_in_db, ?_⟩
      have hcidlast : ((next_four_unarchived db cid).getLast hbne).conversation_id = cid :=
        (mem_unarchivedOf.mp (hbatch_sub_u _ hlast_mem)).2.1
      simp [hcidlast]
    have hhigh_ge : ((next_four_unarchived db cid).getLast hbne).idx ≤
        highestArchivedIdx (compaction_cycle db cid (some text) now) cid :=
      mem_le_foldr_max (-1) (List.mem_map.mpr ⟨_, hlast_in_filter, rfl⟩)
    have hhigh : highestArchivedIdx (compaction_cycle db cid (some text) now) cid =
        ((next_four_unarchived db cid).getLast hbne).idx :=
      le_antisymm hhigh_le hhigh_ge
    constructor
    · unfold chunksContiguous
      rw [hchunks, contiguousFrom_append]
      unfold chunksContiguous at h1
      rw [h1]
      show (true && ((Option.map Message.idx (next_four_unarchived db cid).head?).getD 0 ==
        tilingEndFrom 0 (chunksOf db cid))) = true
      rw [Bool.true_and, hS]
      show (tilingEnd db cid == tilingEnd db cid) = true
      simp
    · show tilingEnd (compaction_cycle db cid (some text) now) cid = _
      unfold tilingEnd
      rw [hchunks, tilingEndFrom_append]
      show (Option.map Message.idx (next_four_unarchived db cid).getLast?).getD 0 + 1 = _
      rw [hgl]
      show ((next_four_unarchived db cid).getLast hbne).idx + 1 = _
      rw [hhigh]

/-- C8 amended witness: from a concrete well-formed store with five fresh
messages, a successful cycle leaves a chunk layout tiling exactly up to the
highest archived index plus one. -/
theorem compaction_cycle_preserves_tiling_witness :
    chunksContiguous (compaction_cycle dbW "c1" (some "sum") "t9") "c1" = true ∧
    tilingEnd (compaction_cycle dbW "c1" (some "sum") "t9") "c1" =
      highestArchivedIdx (compaction_cycle dbW "c1" (some "sum") "t9") "c1" + 1 :=
  compaction_cycle_preserves_tiling dbW "c1" "sum" "t9" (by decide)
